import Mathlib

/-!
Shallow embedding of the `cookiejarx` package (an RFC 6265 cookie jar with a
pluggable storage engine) and proofs about its specification.

Go strings are modelled as `List Char` (the inputs of interest are ASCII, so
byte indexing and character indexing agree).  `time.Time` values are modelled
as `Int` instants: `t.After u` is `t > u`, `t.Before u` is `t < u`,
`t.Equal u` is `t = u`; the zero `time.Time` used by `Cookie.Expires` is
modelled as `none` of an `Option Int`.  External collaborators — `net.ParseIP`
(IP-literal test), the public-suffix list, the punycode/ASCII normalizer and
host canonicalization — are passed in as function parameters, exactly as wide
as the interface the code uses.
-/

namespace Cookiejarx

/-- Go strings, as lists of characters. -/
abbrev GoStr := List Char

/-- Convenience conversion from Lean string literals to `GoStr`. -/
def str (s : String) : GoStr := s.data

/-- The external IP-literal test (`net.ParseIP(host) != nil`), abstracted. -/
abbrev IPCheck := GoStr → Bool

/-- The `PublicSuffixList` collaborator, abstracted to the one operation the
code uses: `PublicSuffix(domain) → suffix`. -/
abbrev PSL := GoStr → GoStr

/-- Modelled from the spec: the external normalization collaborator's
`ToLower(value) → (lowered, wasPureASCII)` (the `punycode.ToLower` call,
whose source is not part of this repository's core files): ASCII case
folding together with a flag telling whether the input was pure ASCII. -/
def toLowerASCII (s : GoStr) : GoStr × Bool :=
  (s.map Char.toLower, s.all fun c => c.toNat < 128)

/-- `HasDotSuffix s suffix` reports whether `s` ends in `"." ++ suffix`
(strictly: `s = suffix` yields `false`). -/
def HasDotSuffix (s suffix : GoStr) : Bool :=
  decide (suffix.length < s.length)
    && (s.get? (s.length - suffix.length - 1) == some '.')
    && decide (s.drop (s.length - suffix.length) = suffix)

/-- Index of the last occurrence of `c` (Go `strings.LastIndex`, with `none`
for Go's `-1`). -/
def lastIndexOf (c : Char) : GoStr → Option Nat
  | [] => none
  | x :: xs =>
    match lastIndexOf c xs with
    | some i => some (i + 1)
    | none => if x = c then some 0 else none

/-- The internal representation of a cookie (`Entry`). -/
structure Entry where
  Name : GoStr := []
  Value : GoStr := []
  Domain : GoStr := []
  Path : GoStr := []
  SameSite : GoStr := []
  Key : GoStr := []
  ID : GoStr := []
  Secure : Bool := false
  HttpOnly : Bool := false
  Persistent : Bool := false
  HostOnly : Bool := false
  Expires : Int := 0
  Creation : Int := 0
  LastAccess : Int := 0
  deriving Repr, DecidableEq

/-- The zero `Entry` value (Go's zero struct). -/
def emptyEntry : Entry := {}

/-- Domain-match of RFC 6265 section 5.1.3. -/
def Entry.DomainMatch (e : Entry) (host : GoStr) : Bool :=
  if e.Domain = host then true
  else !e.HostOnly && HasDotSuffix host e.Domain

/-- Path-match of RFC 6265 section 5.1.4, with the two byte-index accesses
made explicit: `none` models a Go out-of-range index (a run-time panic),
which can only arise from the `e.Path[len(e.Path)-1]` access when `e.Path`
is empty. -/
def Entry.PathMatch? (e : Entry) (requestPath : GoStr) : Option Bool :=
  if requestPath = e.Path then some true
  else if e.Path.isPrefixOf requestPath then
    match e.Path.getLast? with
    | none => none
    | some c =>
      if c = '/' then some true
      else
        match requestPath.get? e.Path.length with
        | none => none
        | some c2 => if c2 = '/' then some true else some false
  else some false

/-- Total version of `PathMatch?` used by the rest of the code; the panic
case (empty stored path, impossible for jar-built entries) resolves to
`false`. -/
def Entry.PathMatch (e : Entry) (requestPath : GoStr) : Bool :=
  (e.PathMatch? requestPath).getD false

/-- Whether `e` qualifies for a request to `host`/`path` over `https`. -/
def Entry.ShouldSend (e : Entry) (https : Bool) (host path : GoStr) : Bool :=
  e.DomainMatch host && e.PathMatch path && (https || !e.Secure)

/-- The directory part of a URL path, RFC 6265 section 5.1.4. -/
def DefaultPath (path : GoStr) : GoStr :=
  if path = [] ∨ path.head? ≠ some '/' then ['/']
  else
    match lastIndexOf '/' path with
    | none => ['/']
    | some 0 => ['/']
    | some i => path.take i

/-- The shared tail computation of `JarKey`: given the position `i` of the
first character of the suffix part, find the last dot strictly before
position `i - 1` (`prevDot := strings.LastIndex(host[:i-1], ".")`) and keep
everything after it (`host[prevDot+1:]`; the whole host when there is no
such dot, matching Go's `prevDot = -1`). -/
def tailFromPrevDot (host : GoStr) (i : Nat) : GoStr :=
  match lastIndexOf '.' (host.take (i - 1)) with
  | none => host
  | some p => host.drop (p + 1)

/-- The jar (partition) key for a canonical host. -/
def JarKey (isIP : IPCheck) (host : GoStr) (psl : Option PSL) : GoStr :=
  if isIP host then host
  else
    let keyFrom : Nat → GoStr := fun i => tailFromPrevDot host i
    match psl with
    | none =>
      match lastIndexOf '.' host with
      | none => host
      | some 0 => host
      | some i => keyFrom i
    | some f =>
      let suffix := f host
      if suffix = host then host
      else
        let i := host.length - suffix.length
        if i = 0 ∨ host.get? (i - 1) ≠ some '.' then host
        else keyFrom i

/-- The classified errors of the entry builder. -/
inductive DomErr where
  | illegalDomain
  | malformedDomain
  | noHostname
  deriving Repr, DecidableEq

/-- Stripping one leading dot from a Domain attribute value
(`if domain[0] == '.' { domain = domain[1:] }`). -/
def dropLeadingDot (s : GoStr) : GoStr :=
  if s.head? = some '.' then s.tail else s

/-- The dot-stripped, ASCII-lowercased Domain attribute value, as
`DomainAndType` computes it. -/
def normDomain (s : GoStr) : GoStr := (toLowerASCII (dropLeadingDot s)).1

/-- `DomainAndType` determines the cookie's domain and hostOnly attribute;
returns `(domain, hostOnly, error)` exactly as the Go triple does
(`("", false, err)` on the error paths). -/
def DomainAndType (isIP : IPCheck) (host domain : GoStr) (psList : Option PSL) :
    GoStr × Bool × Option DomErr :=
  if domain = [] then (host, true, none)
  else if isIP host then ([], false, some DomErr.noHostname)
  else
    let domain1 := dropLeadingDot domain
    if domain1 = [] ∨ domain1.head? = some '.' then ([], false, some DomErr.malformedDomain)
    else
      let p := toLowerASCII domain1
      if p.2 = false then ([], false, some DomErr.malformedDomain)
      else if p.1.getLast? = some '.' then ([], false, some DomErr.malformedDomain)
      else
        let d := p.1
        let fin : GoStr × Bool × Option DomErr :=
          if host ≠ d ∧ HasDotSuffix host d = false then ([], false, some DomErr.illegalDomain)
          else (d, false, none)
        match psList with
        | some f =>
          if f d ≠ [] ∧ HasDotSuffix d (f d) = false then
            (if host = d then (host, true, none) else ([], false, some DomErr.illegalDomain))
          else fin
        | none => fin

/-- The received cookie (`http.Cookie`), restricted to the fields the jar
reads.  `Expires = none` models the zero `time.Time` (`IsZero`); `SameSite`
carries the integer constants of `net/http` (`1` default, `2` lax,
`3` strict). -/
structure Cookie where
  Name : GoStr := []
  Value : GoStr := []
  Path : GoStr := []
  Domain : GoStr := []
  Expires : Option Int := none
  MaxAge : Int := 0
  Secure : Bool := false
  HttpOnly : Bool := false
  SameSite : Int := 0
  deriving Repr, DecidableEq

/-- The instant at which session cookies nominally expire (9999-12-31
23:59:59 UTC, in Unix seconds). -/
def endOfTime : Int := 253402300799

/-- The identity of an entry: `fmt.Sprintf("%s;%s;%s", Domain, Path, Name)`. -/
def mkID (e : Entry) : GoStr := e.Domain ++ (';' :: (e.Path ++ (';' :: e.Name)))

/-- `NewEntry` builds an `Entry` from a received cookie; returns
`(entry, remove, error)`.  The deferred `e.ID` assignment of the source is
reflected by computing the identity at every return point. -/
def NewEntry (isIP : IPCheck) (c : Cookie) (now : Int) (defPath host key : GoStr)
    (psList : Option PSL) : Entry × Bool × Option DomErr :=
  let path := if c.Path = [] ∨ c.Path.head? ≠ some '/' then defPath else c.Path
  let base : Entry := { emptyEntry with Name := c.Name, Key := key, Path := path }
  match DomainAndType isIP host c.Domain psList with
  | (_, _, some err) => ({ base with ID := mkID base }, false, some err)
  | (dom, hostOnly, none) =>
    let e1 : Entry := { base with Domain := dom, HostOnly := hostOnly }
    if c.MaxAge < 0 then
      ({ e1 with ID := mkID e1 }, true, none)
    else
      let e2opt : Option Entry :=
        if c.MaxAge > 0 then some { e1 with Expires := now + c.MaxAge, Persistent := true }
        else
          match c.Expires with
          | none => some { e1 with Expires := endOfTime, Persistent := false }
          | some t =>
            if ¬ t > now then none
            else some { e1 with Expires := t, Persistent := true }
      match e2opt with
      | none => ({ e1 with ID := mkID e1 }, true, none)
      | some e2 =>
        let sameSite : GoStr :=
          if c.SameSite = 1 then str "SameSite"
          else if c.SameSite = 3 then str "SameSite=Strict"
          else if c.SameSite = 2 then str "SameSite=Lax"
          else []
        let e3 : Entry :=
          { e2 with
            Creation := now
            Value := c.Value
            Secure := c.Secure
            HttpOnly := c.HttpOnly
            SameSite := sameSite }
        ({ e3 with ID := mkID e3 }, false, none)

/-- An in-memory stored entry: the entry plus its retrieval-ordering sequence
number. -/
structure InMemEntry where
  entry : Entry
  seqNum : Nat
  deriving Repr, DecidableEq

/-- Go's `map[string]V`, modelled as an association list (the map invariant
of pairwise-distinct keys is stated separately where a proof needs it). -/
abbrev GoMap (V : Type) := List (GoStr × V)

/-- Map lookup (`m[k]`, `none` for a missing key). -/
def alookup {V : Type} (k : GoStr) : GoMap V → Option V
  | [] => none
  | (k2, v) :: rest => if k2 = k then some v else alookup k rest

/-- Map store (`m[k] = v`): replace the first binding of `k`, or append. -/
def ainsert {V : Type} (k : GoStr) (v : V) : GoMap V → GoMap V
  | [] => [(k, v)]
  | (k2, v2) :: rest => if k2 = k then (k, v) :: rest else (k2, v2) :: ainsert k v rest

/-- Map deletion (`delete(m, k)`). -/
def aerase {V : Type} (k : GoStr) : GoMap V → GoMap V
  | [] => []
  | (k2, v2) :: rest => if k2 = k then rest else (k2, v2) :: aerase k rest

/-- The in-memory storage: entries keyed by eTLD+1 and subkeyed by identity,
plus the next sequence number. -/
structure InMemoryStorage where
  entries : GoMap (GoMap InMemEntry)
  nextSeqNum : Nat
  deriving Repr, DecidableEq

/-- A fresh empty storage (`NewInMemoryStorage`). -/
def NewInMemoryStorage : InMemoryStorage := { entries := [], nextSeqNum := 0 }

/-- The unexported `saveEntry`: upsert by `(entry.Key, entry.ID)`, preserving
creation time and sequence number of a replaced entry and assigning the next
sequence number to a new one. -/
def saveEntry (s : InMemoryStorage) (entry : Entry) : InMemoryStorage :=
  let submap := (alookup entry.Key s.entries).getD []
  let id := entry.ID
  match alookup id submap with
  | some old =>
    let e : InMemEntry := { entry := { entry with Creation := old.entry.Creation }
                            seqNum := old.seqNum }
    { s with entries := ainsert entry.Key (ainsert id e submap) s.entries }
  | none =>
    let e : InMemEntry := { entry := entry, seqNum := s.nextSeqNum }
    { entries := ainsert entry.Key (ainsert id e submap) s.entries
      nextSeqNum := s.nextSeqNum + 1 }

/-- `SaveEntry`, the public save (the mutex is irrelevant in the pure model). -/
def SaveEntry (s : InMemoryStorage) (entry : Entry) : InMemoryStorage :=
  saveEntry s entry

/-- `RemoveEntry`: delete by `(key, id)` and drop the partition once empty. -/
def RemoveEntry (s : InMemoryStorage) (key id : GoStr) : InMemoryStorage :=
  match alookup key s.entries with
  | none => s
  | some submap =>
    if (alookup id submap).isSome then
      let submap2 := aerase id submap
      if submap2 = [] then { s with entries := aerase key s.entries }
      else { s with entries := ainsert key submap2 s.entries }
    else s

/-- `EntriesRestore`: re-run `saveEntry` for each provided entry. -/
def EntriesRestore (s : InMemoryStorage) (entries : List Entry) : InMemoryStorage :=
  entries.foldl saveEntry s

/-- `EntriesClear`: empty the storage (the sequence counter is kept). -/
def EntriesClear (s : InMemoryStorage) : InMemoryStorage :=
  { s with entries := [] }

/-- The `sort.Slice` comparator of `Entries`: by path length descending, then
creation time ascending, then sequence number ascending. -/
def entryLess (a b : InMemEntry) : Bool :=
  if a.entry.Path.length ≠ b.entry.Path.length then
    decide (a.entry.Path.length > b.entry.Path.length)
  else if a.entry.Creation ≠ b.entry.Creation then
    decide (a.entry.Creation < b.entry.Creation)
  else decide (a.seqNum < b.seqNum)

/-- The non-strict counterpart of `entryLess`, used to run the sort. -/
def entryLe (a b : InMemEntry) : Bool := ! entryLess b a

/-- The body of the `Entries` loop over one partition: returns the updated
partition, the selected (matching) entries with `LastAccess` stamped, and
the `modified` flag.  A persistent entry whose expiry is not after `now` is
dropped; a surviving entry that matches is re-stored with
`LastAccess = now` and selected. -/
def sweepSelect (https : Bool) (host path : GoStr) (now : Int) :
    GoMap InMemEntry → GoMap InMemEntry × List InMemEntry × Bool
  | [] => ([], [], false)
  | (id, e) :: rest =>
    let r := sweepSelect https host path now rest
    if e.entry.Persistent && ! decide (e.entry.Expires > now) then
      (r.1, r.2.1, true)
    else if ! e.entry.ShouldSend https host path then
      ((id, e) :: r.1, r.2.1, r.2.2)
    else
      let e2 : InMemEntry := { e with entry := { e.entry with LastAccess := now } }
      ((id, e2) :: r.1, e2 :: r.2.1, true)

/-- `Entries`: sweep expired persistent entries of the partition, select the
entries that should be sent, stamp their `LastAccess`, drop the partition if
it became empty, and return the selection sorted by `entryLess`.  Returns the
result list together with the updated storage (the Go method mutates the
receiver). -/
def Entries (s : InMemoryStorage) (https : Bool) (host path key : GoStr) (now : Int) :
    List Entry × InMemoryStorage :=
  match alookup key s.entries with
  | none => ([], s)
  | some submap =>
    let r := sweepSelect https host path now submap
    let s2 :=
      if r.2.2 then
        if r.1 = [] then { s with entries := aerase key s.entries }
        else { s with entries := ainsert key r.1 s.entries }
      else s
    ((List.insertionSort (fun a b => entryLe a b = true) r.2.1).map InMemEntry.entry, s2)

/-- The jar's per-cookie ingestion loop (`setCookies` body): build each entry;
skip it on error, remove by identity on the delete flag, otherwise stamp
`LastAccess = now` and save. -/
def setCookiesLoop (isIP : IPCheck) (psList : Option PSL) (now : Int)
    (defPath host key : GoStr) (s : InMemoryStorage) (cookies : List Cookie) :
    InMemoryStorage :=
  cookies.foldl
    (fun st c =>
      match NewEntry isIP c now defPath host key psList with
      | (_, _, some _) => st
      | (e, true, none) => RemoveEntry st key e.ID
      | (e, false, none) => SaveEntry st { e with LastAccess := now })
    s

/-- The keys of a Go map model. -/
def keys {V : Type} (l : GoMap V) : List GoStr := l.map Prod.fst

/-- Observation helper: the stored entry under partition `key` and identity
`id`, if any. -/
def lookup2 (s : InMemoryStorage) (key id : GoStr) : Option InMemEntry :=
  (alookup key s.entries).bind (alookup id)

/-- Well-formedness delivered by Go's map type: keys are pairwise distinct at
both levels of the two-level entry map. -/
def NodupKeys (s : InMemoryStorage) : Prop :=
  (keys s.entries).Nodup ∧ ∀ p ∈ s.entries, (keys p.2).Nodup

/-- The invariant that every stored partition is non-empty. -/
def PartitionsNonempty (s : InMemoryStorage) : Prop :=
  ∀ p ∈ s.entries, p.2 ≠ []

/-- An entry with its last-access instant stamped, as the `Entries` loop
stores it back. -/
def touch (e : InMemEntry) (now : Int) : InMemEntry :=
  { e with entry := { e.entry with LastAccess := now } }

/-- Observation helper: the concrete selection that `Entries` sorts and
returns for a query — the matching survivors of the queried partition,
carrying their stored sequence numbers, sorted by the three keys of
`entryLess`. -/
def selectedSorted (s : InMemoryStorage) (https : Bool) (host path key : GoStr)
    (now : Int) : List InMemEntry :=
  List.insertionSort (fun a b => entryLe a b = true)
    (sweepSelect https host path now ((alookup key s.entries).getD [])).2.1

/-- `setCookies` with the in-memory storage: no-op unless the list is
non-empty, the scheme is http/https and the host canonicalizes; the external
`CanonicalHost` normalization is abstracted as `canonicalHost` (with `none`
for its error result). -/
def setCookies (canonicalHost : GoStr → Option GoStr) (isIP : IPCheck)
    (psList : Option PSL) (s : InMemoryStorage) (scheme uhost upath : GoStr)
    (cookies : List Cookie) (now : Int) : InMemoryStorage :=
  if cookies = [] then s
  else if scheme ≠ str "http" ∧ scheme ≠ str "https" then s
  else
    match canonicalHost uhost with
    | none => s
    | some host =>
      setCookiesLoop isIP psList now (DefaultPath upath) host (JarKey isIP host psList) s cookies

/-! Concrete instantiations of the external collaborators and sample data,
used to evaluate the theorems at specific inputs. -/

/-- An IP-literal collaborator recognizing no host as an IP literal, the way
`net.ParseIP` behaves on ordinary domain names. -/
def noIPCheck : IPCheck := fun _ => false

/-- An IP-literal collaborator recognizing exactly the IPv4 literal
`1.2.3.4`, the way `net.ParseIP` behaves there. -/
def ip1234 : IPCheck := fun h => decide (h = str "1.2.3.4")

/-- The identity public-suffix list: the repository's own test double
`dummypsl` returns its argument unchanged. -/
def identityPSL : PSL := fun d => d

/-- A public-suffix collaborator that reports `co.uk` for every query. -/
def coukPSL : PSL := fun _ => str "co.uk"

/-- A sample session entry under partition key `k`, used for storage
scenarios: name `nm`, path `pth`, creation instant `cr`. -/
def sampleEntry (nm pth : String) (cr : Int) : Entry :=
  { Name := nm.data
    Path := pth.data
    Domain := str "example.com"
    Key := str "k"
    ID := (str "example.com") ++ (';' :: (pth.data ++ (';' :: nm.data)))
    HostOnly := true
    Expires := endOfTime
    Creation := cr }

/-- The three-record partition of the retrieval-ordering scenario: `/a/b`
created at `t = 3`, `/a` at `t = 1`, `/a` at `t = 2` (saved in that order). -/
def orderScenario : InMemoryStorage :=
  SaveEntry
    (SaveEntry
      (SaveEntry NewInMemoryStorage (sampleEntry "ab" "/a/b" 3))
      (sampleEntry "a1" "/a" 1))
    (sampleEntry "a2" "/a" 2)

/-- A partition with a genuine sequence-number tie-break: after `/a/b`
(`t = 3`) and `/a` (`t = 1`), the records `x` and `y` share path `/a` and
creation time `t = 2` and are saved in the order `x` then `y`, so `x`
receives the smaller sequence number. -/
def tieScenarioXY : InMemoryStorage :=
  SaveEntry
    (SaveEntry
      (SaveEntry
        (SaveEntry NewInMemoryStorage (sampleEntry "ab" "/a/b" 3))
        (sampleEntry "a1" "/a" 1))
      (sampleEntry "x" "/a" 2))
    (sampleEntry "y" "/a" 2)

/-- The same four records as `tieScenarioXY`, but with `y` saved before `x`,
so `y` receives the smaller sequence number. -/
def tieScenarioYX : InMemoryStorage :=
  SaveEntry
    (SaveEntry
      (SaveEntry
        (SaveEntry NewInMemoryStorage (sampleEntry "ab" "/a/b" 3))
        (sampleEntry "a1" "/a" 1))
      (sampleEntry "y" "/a" 2))
    (sampleEntry "x" "/a" 2)

/-- An expired persistent entry (expiry instant `10`). -/
def expiredEntry : Entry :=
  { Name := str "p"
    Path := str "/"
    Domain := str "example.com"
    Key := str "k"
    ID := str "idp"
    HostOnly := true
    Persistent := true
    Expires := 10 }

/-- A session entry whose raw expiry field would long have passed, were the
sweep (wrongly) applied to session entries. -/
def sessionEntry : Entry :=
  { Name := str "s"
    Path := str "/"
    Domain := str "example.com"
    Key := str "k"
    ID := str "ids"
    HostOnly := true
    Persistent := false
    Expires := 0 }

/-- The sweep scenario storage: one expired persistent entry and one session
entry in the same partition. -/
def sweepScenario : InMemoryStorage :=
  SaveEntry (SaveEntry NewInMemoryStorage expiredEntry) sessionEntry

/-- A cookie whose Domain attribute is malformed (still dotted after the
leading dot is stripped). -/
def badDomainCookie : Cookie := { Domain := str "..x", MaxAge := -1 }

/-- An ordinary host-cookie with a one-hour max-age. -/
def goodCookie : Cookie := { Name := str "n", Value := str "v", MaxAge := 3600 }

/-- A host-canonicalization collaborator that canonicalizes every input to
`a.b` (standing in for `CanonicalHost` at concrete inputs). -/
def canonAB : GoStr → Option GoStr := fun _ => some (str "a.b")

/-! Auxiliary lemmas about the association-list model of Go maps and about
`lastIndexOf`. -/

theorem alookup_ainsert_self {V : Type} (k : GoStr) (v : V) (l : GoMap V) :
    alookup k (ainsert k v l) = some v := by
  induction l with
  | nil => simp [ainsert, alookup]
  | cons p rest ih =>
    obtain ⟨k2, v2⟩ := p
    by_cases h : k2 = k <;> simp [ainsert, alookup, h, ih]

theorem mem_of_alookup_eq_some {V : Type} {k : GoStr} {v : V} {l : GoMap V}
    (h : alookup k l = some v) : (k, v) ∈ l := by
  induction l with
  | nil => simp [alookup] at h
  | cons p rest ih =>
    obtain ⟨k2, v2⟩ := p
    by_cases hk : k2 = k
    · simp [alookup, hk] at h
      simp [hk, h]
    · simp [alookup, hk] at h
      exact List.mem_cons_of_mem _ (ih h)

theorem keys_cons {V : Type} (a : GoStr) (b : V) (l : GoMap V) :
    keys ((a, b) :: l) = a :: keys l := rfl

theorem alookup_eq_none_of_not_mem_keys {V : Type} {k : GoStr} {l : GoMap V}
    (h : k ∉ keys l) : alookup k l = none := by
  induction l with
  | nil => simp [alookup]
  | cons p rest ih =>
    obtain ⟨k2, v2⟩ := p
    rw [keys_cons, List.mem_cons] at h
    push_neg at h
    simp [alookup, fun hh : k2 = k => h.1 hh.symm, ih h.2]
    exact fun hh => h.1 hh.symm

theorem mem_keys_of_alookup_eq_some {V : Type} {k : GoStr} {v : V} {l : GoMap V}
    (h : alookup k l = some v) : k ∈ keys l :=
  List.mem_map_of_mem Prod.fst (mem_of_alookup_eq_some h)

theorem alookup_of_mem_nodup {V : Type} {k : GoStr} {v : V} {l : GoMap V}
    (hmem : (k, v) ∈ l) (hnd : (keys l).Nodup) : alookup k l = some v := by
  induction l with
  | nil => simp at hmem
  | cons p rest ih =>
    obtain ⟨k2, v2⟩ := p
    rw [keys_cons, List.nodup_cons] at hnd
    rcases List.mem_cons.mp hmem with h | h
    · cases h
      simp [alookup]
    · have hkmem : k ∈ keys rest := List.mem_map_of_mem Prod.fst h
      have hne : k2 ≠ k := fun he => (he ▸ hnd.1) hkmem
      simp [alookup, hne, ih h hnd.2]

theorem alookup_aerase_self {V : Type} {k : GoStr} {l : GoMap V}
    (hnd : (keys l).Nodup) : alookup k (aerase k l) = none := by
  induction l with
  | nil => simp [aerase, alookup]
  | cons p rest ih =>
    obtain ⟨k2, v2⟩ := p
    rw [keys_cons, List.nodup_cons] at hnd
    by_cases h : k2 = k
    · subst h
      simp only [aerase, if_pos rfl]
      exact alookup_eq_none_of_not_mem_keys hnd.1
    · simp [aerase, h, alookup, ih hnd.2]

theorem mem_ainsert {V : Type} {p : GoStr × V} {k : GoStr} {v : V} {l : GoMap V}
    (h : p ∈ ainsert k v l) : p = (k, v) ∨ p ∈ l := by
  induction l with
  | nil => simpa [ainsert] using h
  | cons q rest ih =>
    obtain ⟨k2, v2⟩ := q
    by_cases hk : k2 = k
    · simp [ainsert, hk] at h
      rcases h with h | h
      · exact Or.inl (by simp [h])
      · exact Or.inr (List.mem_cons_of_mem _ h)
    · simp only [ainsert, if_neg hk] at h
      rcases List.mem_cons.mp h with h | h
      · exact Or.inr (by simp [h])
      · rcases ih h with h | h
        · exact Or.inl h
        · exact Or.inr (List.mem_cons_of_mem _ h)

theorem mem_aerase {V : Type} {p : GoStr × V} {k : GoStr} {l : GoMap V}
    (h : p ∈ aerase k l) : p ∈ l := by
  induction l with
  | nil => simpa [aerase] using h
  | cons q rest ih =>
    obtain ⟨k2, v2⟩ := q
    by_cases hk : k2 = k
    · simp [aerase, hk] at h
      exact List.mem_cons_of_mem _ h
    · simp only [aerase, if_neg hk] at h
      rcases List.mem_cons.mp h with h | h
      · exact h ▸ List.mem_cons_self _ _
      · exact List.mem_cons_of_mem _ (ih h)

theorem ainsert_ne_nil {V : Type} (k : GoStr) (v : V) (l : GoMap V) :
    ainsert k v l ≠ [] := by
  cases l with
  | nil => simp [ainsert]
  | cons q rest =>
    obtain ⟨k2, v2⟩ := q
    by_cases hk : k2 = k <;> simp [ainsert, hk]

theorem alookup_ainsert_ne {V : Type} {k2 k : GoStr} (v : V) (l : GoMap V)
    (h : k2 ≠ k) : alookup k2 (ainsert k v l) = alookup k2 l := by
  have hne : ¬ k = k2 := fun hh => h hh.symm
  induction l with
  | nil => simp only [ainsert, alookup, if_neg hne]
  | cons q rest ih =>
    obtain ⟨k3, v3⟩ := q
    by_cases hk : k3 = k
    · subst hk
      simp only [ainsert, if_pos rfl, alookup, if_neg hne]
    · simp only [ainsert, if_neg hk, alookup, ih]

theorem lastIndexOf_eq_none {c : Char} {l : GoStr} :
    lastIndexOf c l = none ↔ c ∉ l := by
  induction l with
  | nil => simp [lastIndexOf]
  | cons x xs ih =>
    cases h : lastIndexOf c xs with
    | some i =>
      have hmem : c ∈ xs := by
        by_contra hc
        simp [ih.mpr hc] at h
      simp [lastIndexOf, h, hmem]
    | none =>
      have hnx : c ∉ xs := ih.mp h
      by_cases hx : x = c
      · subst hx
        simp [lastIndexOf, h]
      · simp only [lastIndexOf, h, if_neg hx, List.mem_cons]
        constructor
        · intro _ hh
          rcases hh with hh | hh
          · exact hx hh.symm
          · exact hnx hh
        · intro _
          trivial

theorem lastIndexOf_lt_length {c : Char} {l : GoStr} {p : Nat}
    (h : lastIndexOf c l = some p) : p < l.length := by
  induction l generalizing p with
  | nil => simp [lastIndexOf] at h
  | cons x xs ih =>
    simp only [lastIndexOf] at h
    cases hx : lastIndexOf c xs with
    | some i =>
      rw [hx] at h
      cases h
      simpa using ih hx
    | none =>
      rw [hx] at h
      by_cases hc : x = c <;> simp [hc] at h
      simp [← h]

theorem not_mem_drop_of_lastIndexOf {c : Char} {l : GoStr} {p : Nat}
    (h : lastIndexOf c l = some p) : c ∉ l.drop (p + 1) := by
  induction l generalizing p with
  | nil => simp [lastIndexOf] at h
  | cons x xs ih =>
    simp only [lastIndexOf] at h
    cases hx : lastIndexOf c xs with
    | some i =>
      rw [hx] at h
      cases h
      simpa using ih hx
    | none =>
      rw [hx] at h
      by_cases hc : x = c <;> simp [hc] at h
      simp [← h, lastIndexOf_eq_none.mp hx]

theorem head?_take_pos {l : GoStr} {i : Nat} (h : 0 < i) : (l.take i).head? = l.head? := by
  cases l <;> cases i <;> simp_all

/-- C7 (counterexample): `DefaultPath` does not return the substring up to
and including the last slash: on `"/a/b"` the substring up to and including
the last slash is `"/a/"`, but `DefaultPath` returns `"/a"`. -/
theorem defaultPath_excludes_last_slash :
    DefaultPath (str "/a/b") = str "/a" ∧ DefaultPath (str "/a/b") ≠ str "/a/" := by
  constructor <;> decide

/-- C7 (amended): for every request path string, `DefaultPath` returns "/"
when the path is empty or does not start with "/", returns "/" when the last
"/" is at index 0, and otherwise returns the substring of the path up to but
not including the last "/" (`path.take i` where `i` is the index of the last
slash). -/
theorem defaultPath_spec (path : GoStr) :
    (path = [] ∨ path.head? ≠ some '/' → DefaultPath path = ['/']) ∧
    (path.head? = some '/' → lastIndexOf '/' path = some 0 → DefaultPath path = ['/']) ∧
    (∀ i, path.head? = some '/' → lastIndexOf '/' path = some i → 0 < i →
      DefaultPath path = path.take i) := by
  refine ⟨?_, ?_, ?_⟩
  · intro h
    simp only [DefaultPath, if_pos h]
  · intro hh hl
    have hne : ¬ (path = [] ∨ path.head? ≠ some '/') := by
      push_neg
      exact ⟨by rintro rfl; simp at hh, hh⟩
    simp only [DefaultPath, if_neg hne, hl]
  · intro i hh hl hi
    have hne : ¬ (path = [] ∨ path.head? ≠ some '/') := by
      push_neg
      exact ⟨by rintro rfl; simp at hh, hh⟩
    cases i with
    | zero => omega
    | succ n => simp only [DefaultPath, if_neg hne, hl]

/-- C7 (witness): the amended characterization applied to `"/ab/cd"`, whose
last slash is at index 3. -/
theorem defaultPath_spec_witness :
    DefaultPath (str "/ab/cd") = (str "/ab/cd").take 3 :=
  (defaultPath_spec (str "/ab/cd")).2.2 3 (by decide) (by decide) (by decide)

/-- C2 (counterexample): a cookie with `MaxAge = -1` but a malformed Domain
attribute (`"..x"`) makes `NewEntry` return a `malformedDomain` error with
`remove = false`, not `deleteFlag = true` as the claim states. -/
theorem newEntry_negative_maxAge_no_delete_on_error :
    badDomainCookie.MaxAge < 0 ∧
    (NewEntry noIPCheck badDomainCookie 0 (str "/") (str "a.b") (str "a.b") none).2.1 = false ∧
    (NewEntry noIPCheck badDomainCookie 0 (str "/") (str "a.b") (str "a.b") none).2.2 =
      some DomErr.malformedDomain := by
  refine ⟨by decide, by decide, by decide⟩

/-- C2 (amended): for every cookie whose MaxAge attribute is negative, and
every ingestion context, `NewEntry` returns `deleteFlag = true` whenever it
does not reject the cookie's Domain attribute with an error. -/
theorem newEntry_negative_maxAge_delete (isIP : IPCheck) (c : Cookie) (now : Int)
    (defPath host key : GoStr) (psList : Option PSL) (hneg : c.MaxAge < 0)
    (hok : (NewEntry isIP c now defPath host key psList).2.2 = none) :
    (NewEntry isIP c now defPath host key psList).2.1 = true := by
  rcases hd : DomainAndType isIP host c.Domain psList with ⟨dom, hostOnly, err⟩
  cases err with
  | some e =>
    unfold NewEntry at hok
    rw [hd] at hok
    simp at hok
  | none =>
    unfold NewEntry
    rw [hd]
    simp [if_pos hneg]

/-- C2 (witness): a negative-max-age cookie with a well-formed (absent)
Domain attribute is flagged for deletion. -/
theorem newEntry_negative_maxAge_delete_witness :
    (NewEntry noIPCheck { Name := str "n", MaxAge := -1 } 0 (str "/") (str "a.b")
      (str "a.b") none).2.1 = true :=
  newEntry_negative_maxAge_delete noIPCheck { Name := str "n", MaxAge := -1 } 0 (str "/")
    (str "a.b") (str "a.b") none (by decide) (by decide)

theorem defaultPath_ne_nil_head (path : GoStr) :
    DefaultPath path ≠ [] ∧ (DefaultPath path).head? = some '/' := by
  unfold DefaultPath
  by_cases h : path = [] ∨ path.head? ≠ some '/'
  · simp [h]
  · push_neg at h
    rw [if_neg (by push_neg; exact h)]
    cases hl : lastIndexOf '/' path with
    | none => simp
    | some i =>
      cases i with
      | zero => simp
      | succ n =>
        constructor
        · simp [h.1]
        · show (path.take (n + 1)).head? = some '/'
          rw [head?_take_pos (Nat.succ_pos n), h.2]

theorem newEntry_path (isIP : IPCheck) (c : Cookie) (now : Int) (defPath host key : GoStr)
    (psList : Option PSL) :
    (NewEntry isIP c now defPath host key psList).1.Path =
      if c.Path = [] ∨ c.Path.head? ≠ some '/' then defPath else c.Path := by
  rcases hd : DomainAndType isIP host c.Domain psList with ⟨dom, hostOnly, err⟩
  cases err with
  | some e => simp [NewEntry, hd]
  | none =>
    by_cases hma : c.MaxAge < 0
    · simp [NewEntry, hd, if_pos hma]
    · by_cases hma2 : c.MaxAge > 0
      · simp [NewEntry, hd, if_neg hma, if_pos hma2]
      · cases hce : c.Expires with
        | none => simp [NewEntry, hd, if_neg hma, if_neg hma2, hce]
        | some t =>
          by_cases ht : t > now
          · have hle : ¬ t ≤ now := not_le.mpr ht
            simp [NewEntry, hd, if_neg hma, if_neg hma2, hce, hle]
          · have hle : t ≤ now := not_lt.mp ht
            simp [NewEntry, hd, if_neg hma, if_neg hma2, hce, hle]

theorem pathMatchQ_total {e : Entry} (h : e.Path ≠ []) (requestPath : GoStr) :
    (e.PathMatch? requestPath).isSome := by
  unfold Entry.PathMatch?
  by_cases h1 : requestPath = e.Path
  · simp [h1]
  · rw [if_neg h1]
    by_cases h2 : e.Path.isPrefixOf requestPath
    · rw [if_pos h2]
      cases hl : e.Path.getLast? with
      | none => exact absurd (List.getLast?_eq_none.mp hl) h
      | some c =>
        by_cases hc : c = '/'
        · simp [hc]
        · cases hg : requestPath.get? e.Path.length with
          | none =>
            exfalso
            have hpre : e.Path <+: requestPath := List.isPrefixOf_iff_prefix.mp h2
            have hlen : e.Path.length ≤ requestPath.length := hpre.length_le
            have hlen2 : requestPath.length ≤ e.Path.length := List.get?_eq_none.mp hg
            exact h1 (hpre.eq_of_length (le_antisymm hlen hlen2)).symm
          | some c2 => by_cases hc2 : c2 = '/' <;> simp [if_neg hc, hg, hc2]
    · simp [h2]

/-- C9: an entry built by `NewEntry` without error and without the delete
flag, in a context whose default path came from `DefaultPath`, has a
non-empty stored path starting with "/"; consequently `PathMatch?` never
reaches an out-of-range byte index on it — both accesses
`e.Path[len(e.Path)-1]` and `requestPath[len(e.Path)]` stay in bounds and
the predicate is total. -/
theorem newEntry_pathMatch_total (isIP : IPCheck) (c : Cookie) (now : Int)
    (rp host key : GoStr) (psList : Option PSL) (e : Entry)
    (h : NewEntry isIP c now (DefaultPath rp) host key psList = (e, false, none)) :
    e.Path ≠ [] ∧ e.Path.head? = some '/' ∧
      ∀ requestPath, (e.PathMatch? requestPath).isSome := by
  have hpath : e.Path = if c.Path = [] ∨ c.Path.head? ≠ some '/' then DefaultPath rp
      else c.Path := by
    have := newEntry_path isIP c now (DefaultPath rp) host key psList
    rw [h] at this
    exact this
  have hprops : e.Path ≠ [] ∧ e.Path.head? = some '/' := by
    rw [hpath]
    by_cases hc : c.Path = [] ∨ c.Path.head? ≠ some '/'
    · rw [if_pos hc]
      exact defaultPath_ne_nil_head rp
    · push_neg at hc
      rw [if_neg (by push_neg; exact hc)]
      exact ⟨hc.1, hc.2⟩
  exact ⟨hprops.1, hprops.2, fun requestPath => pathMatchQ_total hprops.1 requestPath⟩

/-- C9 (witness): the totality applied to a concrete cookie and request. -/
theorem newEntry_pathMatch_total_witness :
    ((NewEntry noIPCheck goodCookie 0 (DefaultPath (str "/x/y")) (str "a.b") (str "a.b")
      none).1.PathMatch? (str "/x")).isSome :=
  (newEntry_pathMatch_total noIPCheck goodCookie 0 (str "/x/y") (str "a.b") (str "a.b") none
    (NewEntry noIPCheck goodCookie 0 (DefaultPath (str "/x/y")) (str "a.b") (str "a.b")
      none).1 (by decide)).2.2 (str "/x")

theorem tailFromPrevDot_decomp {host : GoStr} {i : Nat} (hi : 0 < i)
    (hdot : host.get? (i - 1) = some '.') :
    ∃ label, '.' ∉ label ∧ tailFromPrevDot host i = label ++ '.' :: host.drop i := by
  obtain ⟨hlt, hget⟩ := List.get?_eq_some.mp hdot
  have hsplit : host = host.take (i - 1) ++ '.' :: host.drop i := by
    have h1 : host.take (i - 1) ++ host.drop (i - 1) = host := List.take_append_drop _ _
    have h2 : host.drop (i - 1) = host.get ⟨i - 1, hlt⟩ :: host.drop (i - 1 + 1) := by
      rw [List.drop_eq_get_cons hlt]
    rw [hget] at h2
    have h3 : i - 1 + 1 = i := by omega
    rw [h3] at h2
    calc host = host.take (i - 1) ++ host.drop (i - 1) := h1.symm
      _ = host.take (i - 1) ++ '.' :: host.drop i := by rw [h2]
  cases hlast : lastIndexOf '.' (host.take (i - 1)) with
  | none =>
    refine ⟨host.take (i - 1), lastIndexOf_eq_none.mp hlast, ?_⟩
    simp only [tailFromPrevDot, hlast]
    exact hsplit
  | some p =>
    refine ⟨(host.take (i - 1)).drop (p + 1), not_mem_drop_of_lastIndexOf hlast, ?_⟩
    simp only [tailFromPrevDot, hlast]
    have hp : p + 1 ≤ (host.take (i - 1)).length :=
      Nat.succ_le_of_lt (lastIndexOf_lt_length hlast)
    conv_lhs => rw [hsplit]
    rw [List.drop_append_of_le_length hp]

/-- C6: case analysis of `JarKey` (`PartitionKey`).  The key is the host
itself when the host is an IP literal; with no collaborator, the whole host
when it contains no dot or the last dot is at position 0, and otherwise the
substring after the second-to-last dot (`tailFromPrevDot host i`, the part
of the host after the last dot that lies strictly before position `i - 1`,
where `i` is the position of the last dot); with a collaborator, the host
when the reported suffix equals the host or is structurally inconsistent
(zero-length prefix or not dot-preceded), and otherwise the one label
immediately preceding the suffix plus the suffix (shown both as
`tailFromPrevDot` and as an explicit dot-free `label ++ "." ++ suffix`
decomposition); in particular a collaborator reporting `co.uk` gives
`JarKey "foo.co.uk" = "foo.co.uk"` and `JarKey "bar.foo.co.uk" = "foo.co.uk"`. -/
theorem jarKey_spec (isIP : IPCheck) (host : GoStr) (psl : Option PSL) :
    (isIP host = true → JarKey isIP host psl = host) ∧
    (isIP host = false → psl = none →
      (lastIndexOf '.' host = none ∨ lastIndexOf '.' host = some 0) →
      JarKey isIP host psl = host) ∧
    (∀ i, isIP host = false → psl = none → lastIndexOf '.' host = some i → 0 < i →
      JarKey isIP host psl = tailFromPrevDot host i) ∧
    (∀ f, isIP host = false → psl = some f → f host = host → JarKey isIP host psl = host) ∧
    (∀ f, isIP host = false → psl = some f → f host ≠ host →
      (host.length - (f host).length = 0 ∨
        host.get? (host.length - (f host).length - 1) ≠ some '.') →
      JarKey isIP host psl = host) ∧
    (∀ f, isIP host = false → psl = some f → f host ≠ host →
      0 < host.length - (f host).length →
      host.get? (host.length - (f host).length - 1) = some '.' →
      JarKey isIP host psl = tailFromPrevDot host (host.length - (f host).length) ∧
      ∃ label, '.' ∉ label ∧
        JarKey isIP host psl = label ++ '.' :: host.drop (host.length - (f host).length)) ∧
    (JarKey noIPCheck (str "foo.co.uk") (some coukPSL) = str "foo.co.uk" ∧
      JarKey noIPCheck (str "bar.foo.co.uk") (some coukPSL) = str "foo.co.uk") := by
  refine ⟨?_, ?_, ?_, ?_, ?_, ?_, by decide, by decide⟩
  · intro h
    simp [JarKey, h]
  · intro hip hp hl
    subst hp
    rcases hl with hl | hl <;> simp [JarKey, hip, hl]
  · intro i hip hp hl hi
    subst hp
    cases i with
    | zero => omega
    | succ n => simp [JarKey, hip, hl]
  · intro f hip hp hf
    subst hp
    simp [JarKey, hip, hf]
  · intro f hip hp hf hcond
    subst hp
    simp only [JarKey, hip, Bool.false_eq_true, if_false, if_neg hf, if_pos hcond]
  · intro f hip hp hf hpos hdot
    subst hp
    have hcond : ¬ (host.length - (f host).length = 0 ∨
        host.get? (host.length - (f host).length - 1) ≠ some '.') := by
      push_neg
      exact ⟨by omega, hdot⟩
    have hkey : JarKey isIP host (some f) =
        tailFromPrevDot host (host.length - (f host).length) := by
      simp only [JarKey, hip, Bool.false_eq_true, if_false, if_neg hf, if_neg hcond]
    obtain ⟨label, hnd, hdec⟩ := tailFromPrevDot_decomp hpos hdot
    exact ⟨hkey, label, hnd, by rw [hkey, hdec]⟩

/-- C6 (witness): when the collaborator reports the whole host as its own
public suffix, the key is the host. -/
theorem jarKey_spec_witness :
    JarKey noIPCheck (str "abc") (some identityPSL) = str "abc" :=
  (jarKey_spec noIPCheck (str "abc") (some identityPSL)).2.2.2.1 identityPSL rfl rfl rfl

theorem toLower_dot : Char.toLower '.' = '.' := by decide

theorem toNat_lt_of_toLower {a : Char} (h : (Char.toLower a).toNat < 128) :
    a.toNat < 128 := by
  by_cases hc : a.toNat ≥ 65 ∧ a.toNat ≤ 90
  · obtain ⟨h1, h2⟩ := hc
    omega
  · simp only [Char.toLower, if_neg hc] at h
    exact h

theorem toLowerASCII_flag_of_map {l : GoStr}
    (h : ((toLowerASCII l).1.all fun c => c.toNat < 128) = true) :
    (toLowerASCII l).2 = true := by
  simp only [toLowerASCII] at h ⊢
  rw [List.all_eq_true] at h ⊢
  intro a ha
  have h2 := h (Char.toLower a) (List.mem_map_of_mem _ ha)
  simp only [decide_eq_true_eq] at h2 ⊢
  exact toNat_lt_of_toLower h2

theorem head?_toLowerASCII (l : GoStr) : (toLowerASCII l).1.head? = l.head?.map Char.toLower := by
  simp [toLowerASCII, List.head?_map]

/-- C1 (amended): for every canonical host (non-empty, pure ASCII, no
leading and no trailing dot), Domain attribute value, IP-literal
collaborator and public-suffix collaborator: `DomainAndType` returns
`hostOnly = true` if and only if either the Domain attribute is empty, or
the host is not an IP literal, the collaborator is present, the public
suffix of the dot-stripped lowercased domain is non-empty and not a strict
dot-suffix of that domain, and the host equals that domain; and an entry
with `HostOnly = true` domain-matches exactly the hosts equal to its
domain, never subdomains. -/
theorem domainAndType_hostOnly_iff (isIP : IPCheck) (host domain : GoStr)
    (psList : Option PSL) (hne : host ≠ []) (hhd : host.head? ≠ some '.')
    (hlast : host.getLast? ≠ some '.')
    (hascii : (host.all fun c => c.toNat < 128) = true) :
    ((DomainAndType isIP host domain psList).2.1 = true ↔
      (domain = [] ∨
        (isIP host = false ∧ ∃ f, psList = some f ∧ f (normDomain domain) ≠ [] ∧
          HasDotSuffix (normDomain domain) (f (normDomain domain)) = false ∧
          host = normDomain domain))) ∧
    (∀ (e : Entry) (h : GoStr), e.HostOnly = true →
      (e.DomainMatch h = true ↔ h = e.Domain)) := by
  have hndrfl : ∀ dm : GoStr, normDomain dm = (toLowerASCII (dropLeadingDot dm)).1 :=
    fun dm => rfl
  constructor
  · by_cases hd0 : domain = []
    · simp [DomainAndType, hd0]
    · by_cases hip : isIP host = true
      · simp [DomainAndType, hd0, hip]
      · have hip2 : isIP host = false := by simpa using hip
        by_cases hm1 : dropLeadingDot domain = [] ∨ (dropLeadingDot domain).head? = some '.'
        · simp only [DomainAndType, if_neg hd0, if_neg hip, if_pos hm1]
          constructor
          · intro h
            simp at h
          · rintro (h | ⟨_, f, hpsl, hfne, hsfx, hhost⟩)
            · exact absurd h hd0
            · rcases hm1 with hm1 | hm1
              · rw [hndrfl, hm1] at hhost
                exact absurd hhost hne
              · rw [hndrfl] at hhost
                have : host.head? = some '.' := by
                  rw [hhost, head?_toLowerASCII, hm1]
                  decide
                exact absurd this hhd
        · by_cases hm2 : (toLowerASCII (dropLeadingDot domain)).2 = false
          · simp only [DomainAndType, if_neg hd0, if_neg hip,
              if_neg hm1, hm2, if_pos rfl]
            constructor
            · intro h
              simp at h
            · rintro (h | ⟨_, f, hpsl, hfne, hsfx, hhost⟩)
              · exact absurd h hd0
              · rw [hndrfl] at hhost
                have hflag : (toLowerASCII (dropLeadingDot domain)).2 = true :=
                  toLowerASCII_flag_of_map (by rw [← hhost]; exact hascii)
                rw [hm2] at hflag
                cases hflag
          · have hm2t : (toLowerASCII (dropLeadingDot domain)).2 = true := by
              simpa using hm2
            by_cases hm3 : (toLowerASCII (dropLeadingDot domain)).1.getLast? = some '.'
            · simp only [DomainAndType, if_neg hd0, if_neg hip,
                if_neg hm1, if_neg hm2, if_pos hm3]
              constructor
              · intro h
                simp at h
              · rintro (h | ⟨_, f, hpsl, hfne, hsfx, hhost⟩)
                · exact absurd h hd0
                · rw [hndrfl] at hhost
                  rw [← hhost] at hm3
                  exact absurd hm3 hlast
            · cases hpsl : psList with
              | none =>
                simp only [DomainAndType, if_neg hd0, if_neg hip,
                  if_neg hm1, if_neg hm2, if_neg hm3]
                constructor
                · intro h
                  by_cases hfin : host ≠ (toLowerASCII (dropLeadingDot domain)).1 ∧
                      HasDotSuffix host (toLowerASCII (dropLeadingDot domain)).1 = false
                  · rw [if_pos hfin] at h
                    simp at h
                  · rw [if_neg hfin] at h
                    simp at h
                · rintro (h | ⟨_, f, hpsl2, _⟩)
                  · exact absurd h hd0
                  · cases hpsl2
              | some f =>
                by_cases hps : f (toLowerASCII (dropLeadingDot domain)).1 ≠ [] ∧
                    HasDotSuffix (toLowerASCII (dropLeadingDot domain)).1
                      (f (toLowerASCII (dropLeadingDot domain)).1) = false
                · by_cases hh : host = (toLowerASCII (dropLeadingDot domain)).1
                  · simp only [DomainAndType, if_neg hd0, if_neg hip,
                      if_neg hm1, if_neg hm2, if_neg hm3, if_pos hps, if_pos hh]
                    constructor
                    · intro _
                      exact Or.inr ⟨hip2, f, rfl, by rw [hndrfl]; exact hps.1,
                        by rw [hndrfl]; exact hps.2, by rw [hndrfl]; exact hh⟩
                    · intro _
                      trivial
                  · simp only [DomainAndType, if_neg hd0, if_neg hip,
                      if_neg hm1, if_neg hm2, if_neg hm3, if_pos hps, if_neg hh]
                    constructor
                    · intro h
                      simp at h
                    · rintro (h | ⟨_, f2, hpsl2, hfne, hsfx, hhost⟩)
                      · exact absurd h hd0
                      · rw [hndrfl] at hhost
                        exact absurd hhost hh
                · simp only [DomainAndType, if_neg hd0, if_neg hip,
                    if_neg hm1, if_neg hm2, if_neg hm3, if_neg hps]
                  constructor
                  · intro h
                    by_cases hfin : host ≠ (toLowerASCII (dropLeadingDot domain)).1 ∧
                        HasDotSuffix host (toLowerASCII (dropLeadingDot domain)).1 = false
                    · rw [if_pos hfin] at h
                      simp at h
                    · rw [if_neg hfin] at h
                      simp at h
                  · rintro (h | ⟨_, f2, hpsl2, hfne, hsfx, hhost⟩)
                    · exact absurd h hd0
                    · have hf2 : f2 = f := by
                        cases hpsl2
                        rfl
                      rw [hndrfl, hf2] at hfne hsfx
                      exact absurd ⟨hfne, hsfx⟩ hps
  · intro e h hho
    unfold Entry.DomainMatch
    by_cases hd : e.Domain = h
    · simp [hd]
    · simp only [if_neg hd, hho, Bool.not_true, Bool.false_and]
      constructor
      · intro hfalse
        cases hfalse
      · intro hh
        exact absurd hh.symm hd

/-- C1 (counterexample): on the IP-literal host `1.2.3.4` with Domain
attribute `1.2.3.4` and the identity public-suffix collaborator (the
repository's own test double), the claimed right-hand side holds — the
collaborator is present, the suffix of the normalized domain is non-empty,
not a strict dot-suffix, and the host equals the domain — yet
`DomainAndType` returns `hostOnly = false` (with a `noHostname` error), so
the claimed equivalence fails without the "host is not an IP literal"
condition. -/
theorem domainAndType_hostOnly_ip_refutation :
    (DomainAndType ip1234 (str "1.2.3.4") (str "1.2.3.4") (some identityPSL)).2.1 = false ∧
    (∃ f, (some identityPSL : Option PSL) = some f ∧
      f (normDomain (str "1.2.3.4")) ≠ [] ∧
      HasDotSuffix (normDomain (str "1.2.3.4")) (f (normDomain (str "1.2.3.4"))) = false ∧
      str "1.2.3.4" = normDomain (str "1.2.3.4")) := by
  refine ⟨by decide, identityPSL, rfl, by decide, by decide, by decide⟩

/-- C1 (witness): an empty Domain attribute yields a host-only cookie. -/
theorem domainAndType_hostOnly_iff_witness :
    (DomainAndType noIPCheck (str "www.example.com") [] none).2.1 = true :=
  ((domainAndType_hostOnly_iff noIPCheck (str "www.example.com") [] none (by decide)
    (by decide) (by decide) (by decide)).1).mpr (Or.inl rfl)

/-- C5: `SaveEntry` upserts by the entry's partition key and identity: when
an entry with the same identity is already stored, the new entry is stored
with the old entry's creation time and sequence number and the global
counter is unchanged; otherwise the new entry receives the next sequence
number and the counter is incremented. -/
theorem saveEntry_identity (s : InMemoryStorage) (entry : Entry) :
    (∀ old, lookup2 s entry.Key entry.ID = some old →
      lookup2 (SaveEntry s entry) entry.Key entry.ID =
          some { entry := { entry with Creation := old.entry.Creation }
                 seqNum := old.seqNum } ∧
        (SaveEntry s entry).nextSeqNum = s.nextSeqNum) ∧
    (lookup2 s entry.Key entry.ID = none →
      lookup2 (SaveEntry s entry) entry.Key entry.ID =
          some { entry := entry, seqNum := s.nextSeqNum } ∧
        (SaveEntry s entry).nextSeqNum = s.nextSeqNum + 1) := by
  constructor
  · intro old hold
    have hsub : alookup entry.ID ((alookup entry.Key s.entries).getD []) = some old := by
      unfold lookup2 at hold
      cases hk : alookup entry.Key s.entries with
      | none => rw [hk] at hold; simp at hold
      | some submap => rw [hk] at hold; simpa using hold
    constructor
    · unfold lookup2 SaveEntry saveEntry
      simp [hsub, alookup_ainsert_self]
    · unfold SaveEntry saveEntry
      simp [hsub]
  · intro hold
    have hsub : alookup entry.ID ((alookup entry.Key s.entries).getD []) = none := by
      unfold lookup2 at hold
      cases hk : alookup entry.Key s.entries with
      | none => simp [alookup]
      | some submap => rw [hk] at hold; simpa using hold
    constructor
    · unfold lookup2 SaveEntry saveEntry
      simp [hsub, alookup_ainsert_self]
    · unfold SaveEntry saveEntry
      simp [hsub]

/-- C5 (witness): re-saving the same identity into `sweepScenario` keeps the
stored creation time and sequence number and the counter. -/
theorem saveEntry_identity_witness :
    lookup2 (SaveEntry sweepScenario sessionEntry) sessionEntry.Key sessionEntry.ID =
        some { entry := sessionEntry, seqNum := 1 } ∧
      (SaveEntry sweepScenario sessionEntry).nextSeqNum = sweepScenario.nextSeqNum :=
  ((saveEntry_identity sweepScenario sessionEntry).1 { entry := sessionEntry, seqNum := 1 }
    (by decide))

theorem partitionsNonempty_saveEntry (s : InMemoryStorage) (e : Entry)
    (hs : PartitionsNonempty s) : PartitionsNonempty (saveEntry s e) := by
  intro p hp
  unfold saveEntry at hp
  cases hm : alookup e.ID ((alookup e.Key s.entries).getD []) with
  | some old =>
    simp only [hm] at hp
    rcases mem_ainsert hp with h | h
    · rw [h]
      exact ainsert_ne_nil _ _ _
    · exact hs p h
  | none =>
    simp only [hm] at hp
    rcases mem_ainsert hp with h | h
    · rw [h]
      exact ainsert_ne_nil _ _ _
    · exact hs p h

theorem partitionsNonempty_removeEntry (s : InMemoryStorage) (k id : GoStr)
    (hs : PartitionsNonempty s) : PartitionsNonempty (RemoveEntry s k id) := by
  intro p hp
  unfold RemoveEntry at hp
  cases hk : alookup k s.entries with
  | none =>
    rw [hk] at hp
    exact hs p hp
  | some submap =>
    rw [hk] at hp
    simp only at hp
    by_cases hid : (alookup id submap).isSome
    · rw [if_pos hid] at hp
      by_cases hnil : aerase id submap = []
      · rw [if_pos hnil] at hp
        simp only at hp
        exact hs p (mem_aerase hp)
      · rw [if_neg hnil] at hp
        simp only at hp
        rcases mem_ainsert hp with h | h
        · rw [h]
          exact hnil
        · exact hs p h
    · rw [if_neg hid] at hp
      exact hs p hp

theorem partitionsNonempty_entries (s : InMemoryStorage) (https : Bool)
    (host path key : GoStr) (now : Int) (hs : PartitionsNonempty s) :
    PartitionsNonempty (Entries s https host path key now).2 := by
  intro p hp
  unfold Entries at hp
  cases hk : alookup key s.entries with
  | none =>
    rw [hk] at hp
    exact hs p hp
  | some submap =>
    rw [hk] at hp
    simp only at hp
    by_cases hmod : (sweepSelect https host path now submap).2.2 = true
    · rw [if_pos hmod] at hp
      by_cases hnil : (sweepSelect https host path now submap).1 = []
      · rw [if_pos hnil] at hp
        simp only at hp
        exact hs p (mem_aerase hp)
      · rw [if_neg hnil] at hp
        simp only at hp
        rcases mem_ainsert hp with h | h
        · rw [h]
          exact hnil
        · exact hs p h
    · rw [if_neg hmod] at hp
      exact hs p hp

theorem partitionsNonempty_restore (s : InMemoryStorage) (l : List Entry)
    (hs : PartitionsNonempty s) : PartitionsNonempty (EntriesRestore s l) := by
  induction l generalizing s with
  | nil => exact hs
  | cons e rest ih => exact ih (saveEntry s e) (partitionsNonempty_saveEntry s e hs)

/-- C10: every partition key present in the two-level entries map maps to a
non-empty identity map: the empty store satisfies the invariant and it is
preserved by `SaveEntry`, `RemoveEntry`, `Entries`, `EntriesRestore` and
`EntriesClear` (emptied partitions are always deleted). -/
theorem partitionsNonempty_invariant :
    PartitionsNonempty NewInMemoryStorage ∧
    (∀ s e, PartitionsNonempty s → PartitionsNonempty (SaveEntry s e)) ∧
    (∀ s k id, PartitionsNonempty s → PartitionsNonempty (RemoveEntry s k id)) ∧
    (∀ s https host path key now, PartitionsNonempty s →
      PartitionsNonempty (Entries s https host path key now).2) ∧
    (∀ s l, PartitionsNonempty s → PartitionsNonempty (EntriesRestore s l)) ∧
    (∀ s, PartitionsNonempty s → PartitionsNonempty (EntriesClear s)) := by
  refine ⟨?_, ?_, ?_, ?_, ?_, ?_⟩
  · intro p hp
    simp [NewInMemoryStorage] at hp
  · exact fun s e hs => partitionsNonempty_saveEntry s e hs
  · exact fun s k id hs => partitionsNonempty_removeEntry s k id hs
  · exact fun s https host path key now hs =>
      partitionsNonempty_entries s https host path key now hs
  · exact fun s l hs => partitionsNonempty_restore s l hs
  · intro s hs p hp
    simp [EntriesClear] at hp

/-- C10 (witness): the invariant propagated through a save into the empty
store. -/
theorem partitionsNonempty_invariant_witness :
    PartitionsNonempty (SaveEntry NewInMemoryStorage sessionEntry) :=
  partitionsNonempty_invariant.2.1 NewInMemoryStorage sessionEntry
    (by intro p hp; simp [NewInMemoryStorage] at hp)

theorem sweepSelect_keys_sublist (https : Bool) (host path : GoStr) (now : Int)
    (sm : GoMap InMemEntry) :
    (keys (sweepSelect https host path now sm).1).Sublist (keys sm) := by
  induction sm with
  | nil => simp [sweepSelect]
  | cons q rest ih =>
    obtain ⟨id0, e0⟩ := q
    simp only [sweepSelect]
    by_cases hexp : (e0.entry.Persistent && ! decide (e0.entry.Expires > now)) = true
    · rw [if_pos hexp]
      exact ih.cons id0
    · rw [if_neg hexp]
      by_cases hsend : (! e0.entry.ShouldSend https host path) = true
      · rw [if_pos hsend]
        exact ih.cons₂ id0
      · rw [if_neg hsend]
        exact ih.cons₂ id0

theorem sweepSelect_expired_not_mem (https : Bool) (host path : GoStr) (now : Int)
    {sm : GoMap InMemEntry} {id : GoStr} {e : InMemEntry} (hmem : (id, e) ∈ sm)
    (hnd : (keys sm).Nodup) (hper : e.entry.Persistent = true)
    (hexp : e.entry.Expires ≤ now) :
    id ∉ keys (sweepSelect https host path now sm).1 := by
  induction sm with
  | nil => simp at hmem
  | cons q rest ih =>
    obtain ⟨id0, e0⟩ := q
    rw [keys_cons, List.nodup_cons] at hnd
    simp only [sweepSelect]
    rcases List.mem_cons.mp hmem with h | h
    · cases h
      have hg : (e.entry.Persistent && ! decide (e.entry.Expires > now)) = true := by
        simp [hper, not_lt.mpr hexp]
      rw [if_pos hg]
      intro hc
      exact hnd.1 ((sweepSelect_keys_sublist https host path now rest).subset hc)
    · have hidmem : id ∈ keys rest := List.mem_map_of_mem Prod.fst h
      have hne : id ≠ id0 := fun hh => hnd.1 (hh ▸ hidmem)
      have ihr := ih h hnd.2
      by_cases hg : (e0.entry.Persistent && ! decide (e0.entry.Expires > now)) = true
      · rw [if_pos hg]
        exact ihr
      · rw [if_neg hg]
        by_cases hsend : (! e0.entry.ShouldSend https host path) = true
        · rw [if_pos hsend]
          rw [keys_cons, List.mem_cons]
          rintro (hc | hc)
          · exact hne hc
          · exact ihr hc
        · rw [if_neg hsend]
          rw [keys_cons, List.mem_cons]
          rintro (hc | hc)
          · exact hne hc
          · exact ihr hc

theorem sweepSelect_expired_modified (https : Bool) (host path : GoStr) (now : Int)
    {sm : GoMap InMemEntry} {id : GoStr} {e : InMemEntry} (hmem : (id, e) ∈ sm)
    (hper : e.entry.Persistent = true) (hexp : e.entry.Expires ≤ now) :
    (sweepSelect https host path now sm).2.2 = true := by
  induction sm with
  | nil => simp at hmem
  | cons q rest ih =>
    obtain ⟨id0, e0⟩ := q
    simp only [sweepSelect]
    rcases List.mem_cons.mp hmem with h | h
    · cases h
      have hg : (e.entry.Persistent && ! decide (e.entry.Expires > now)) = true := by
        simp [hper, not_lt.mpr hexp]
      rw [if_pos hg]
    · have ihr := ih h
      by_cases hg : (e0.entry.Persistent && ! decide (e0.entry.Expires > now)) = true
      · rw [if_pos hg]
      · rw [if_neg hg]
        by_cases hsend : (! e0.entry.ShouldSend https host path) = true
        · rw [if_pos hsend]
          exact ihr
        · rw [if_neg hsend]

theorem sweepSelect_session_kept (https : Bool) (host path : GoStr) (now : Int)
    {sm : GoMap InMemEntry} {id : GoStr} {e : InMemEntry} (hmem : (id, e) ∈ sm)
    (hper : e.entry.Persistent = false) :
    (id, e) ∈ (sweepSelect https host path now sm).1 ∨
      (id, touch e now) ∈ (sweepSelect https host path now sm).1 := by
  induction sm with
  | nil => simp at hmem
  | cons q rest ih =>
    obtain ⟨id0, e0⟩ := q
    simp only [sweepSelect]
    rcases List.mem_cons.mp hmem with h | h
    · cases h
      have hg : (e.entry.Persistent && ! decide (e.entry.Expires > now)) = false := by
        simp [hper]
      rw [if_neg (by simp [hg])]
      by_cases hsend : (! e.entry.ShouldSend https host path) = true
      · rw [if_pos hsend]
        exact Or.inl (List.mem_cons_self _ _)
      · rw [if_neg hsend]
        exact Or.inr (List.mem_cons_self _ _)
    · rcases ih h with hh | hh
      all_goals by_cases hg : (e0.entry.Persistent && ! decide (e0.entry.Expires > now)) = true
      · rw [if_pos hg]
        exact Or.inl hh
      · rw [if_neg hg]
        by_cases hsend : (! e0.entry.ShouldSend https host path) = true
        · rw [if_pos hsend]
          exact Or.inl (List.mem_cons_of_mem _ hh)
        · rw [if_neg hsend]
          exact Or.inl (List.mem_cons_of_mem _ hh)
      · rw [if_pos hg]
        exact Or.inr hh
      · rw [if_neg hg]
        by_cases hsend : (! e0.entry.ShouldSend https host path) = true
        · rw [if_pos hsend]
          exact Or.inr (List.mem_cons_of_mem _ hh)
        · rw [if_neg hsend]
          exact Or.inr (List.mem_cons_of_mem _ hh)

theorem sweepSelect_selected_unexpired (https : Bool) (host path : GoStr) (now : Int)
    {sm : GoMap InMemEntry} {x : InMemEntry}
    (hx : x ∈ (sweepSelect https host path now sm).2.1)
    (hper : x.entry.Persistent = true) : x.entry.Expires > now := by
  induction sm with
  | nil => simp [sweepSelect] at hx
  | cons q rest ih =>
    obtain ⟨id0, e0⟩ := q
    simp only [sweepSelect] at hx
    by_cases hg : (e0.entry.Persistent && ! decide (e0.entry.Expires > now)) = true
    · rw [if_pos hg] at hx
      exact ih hx
    · rw [if_neg hg] at hx
      by_cases hsend : (! e0.entry.ShouldSend https host path) = true
      · rw [if_pos hsend] at hx
        exact ih hx
      · rw [if_neg hsend] at hx
        rcases List.mem_cons.mp hx with h | h
        · subst h
          simp only [Bool.and_eq_true, Bool.not_eq_true, decide_eq_false_iff_not,
            not_not, not_and] at hg
          have := hg (by simpa using hper)
          simpa using this
        · exact ih h

theorem sweepSelect_selected_mem (https : Bool) (host path : GoStr) (now : Int)
    {sm : GoMap InMemEntry} {x : InMemEntry}
    (hx : x ∈ (sweepSelect https host path now sm).2.1) :
    ∃ id, (id, x) ∈ (sweepSelect https host path now sm).1 := by
  induction sm with
  | nil => simp [sweepSelect] at hx
  | cons q rest ih =>
    obtain ⟨id0, e0⟩ := q
    simp only [sweepSelect] at hx ⊢
    by_cases hg : (e0.entry.Persistent && ! decide (e0.entry.Expires > now)) = true
    · rw [if_pos hg] at hx ⊢
      exact ih hx
    · rw [if_neg hg] at hx ⊢
      by_cases hsend : (! e0.entry.ShouldSend https host path) = true
      · rw [if_pos hsend] at hx ⊢
        obtain ⟨id, hid⟩ := ih hx
        exact ⟨id, List.mem_cons_of_mem _ hid⟩
      · rw [if_neg hsend] at hx ⊢
        rcases List.mem_cons.mp hx with h | h
        · subst h
          exact ⟨id0, List.mem_cons_self _ _⟩
        · obtain ⟨id, hid⟩ := ih h
          exact ⟨id, List.mem_cons_of_mem _ hid⟩

/-- C3: on every `Entries` (Query) call, every persistent record of the
queried partition whose expiry is not strictly after `now` is deleted (it is
gone from the partition in the post-state, and every record in the returned
list is unexpired), while a record with `persistent = false` is never
deleted by the sweep, whatever its expiry value — it survives, at most with
its last-access instant stamped. -/
theorem entries_sweep (s : InMemoryStorage) (https : Bool) (host path key : GoStr)
    (now : Int) (hnd : NodupKeys s) :
    (∀ id e, lookup2 s key id = some e → e.entry.Persistent = true →
      e.entry.Expires ≤ now →
      lookup2 (Entries s https host path key now).2 key id = none) ∧
    (∀ x ∈ (Entries s https host path key now).1,
      x.Persistent = true → x.Expires > now) ∧
    (∀ id e, lookup2 s key id = some e → e.entry.Persistent = false →
      ∃ e2, lookup2 (Entries s https host path key now).2 key id = some e2 ∧
        (e2 = e ∨ e2 = touch e now)) := by
  cases hk : alookup key s.entries with
  | none =>
    refine ⟨?_, ?_, ?_⟩
    · intro id e hl
      rw [lookup2, hk] at hl
      simp at hl
    · intro x hx
      rw [Entries, hk] at hx
      simp at hx
    · intro id e hl
      rw [lookup2, hk] at hl
      simp at hl
  | some submap =>
    have hsubmem : (key, submap) ∈ s.entries := mem_of_alookup_eq_some hk
    have hndsub : (keys submap).Nodup := hnd.2 _ hsubmem
    have hndr : (keys (sweepSelect https host path now submap).1).Nodup :=
      List.Nodup.sublist (sweepSelect_keys_sublist https host path now submap) hndsub
    refine ⟨?_, ?_, ?_⟩
    · intro id e hl hper hexp
      rw [lookup2, hk] at hl
      simp only [Option.some_bind] at hl
      have hmem : (id, e) ∈ submap := mem_of_alookup_eq_some hl
      have hmod := sweepSelect_expired_modified https host path now hmem hper hexp
      have hnotin := sweepSelect_expired_not_mem https host path now hmem hndsub hper hexp
      rw [lookup2, Entries, hk]
      simp only [hmod, if_true]
      by_cases hnil : (sweepSelect https host path now submap).1 = []
      · rw [if_pos hnil]
        simp only
        rw [alookup_aerase_self hnd.1]
        rfl
      · rw [if_neg hnil]
        simp only
        rw [alookup_ainsert_self]
        simp only [Option.some_bind]
        exact alookup_eq_none_of_not_mem_keys hnotin
    · intro x hx hper
      rw [Entries, hk] at hx
      simp only at hx
      rw [List.mem_map] at hx
      obtain ⟨y, hy, hyx⟩ := hx
      have hysel : y ∈ (sweepSelect https host path now submap).2.1 :=
        (List.perm_insertionSort (fun a b => entryLe a b = true) _).mem_iff.mp hy
      have : y.entry.Expires > now :=
        sweepSelect_selected_unexpired https host path now hysel (by rw [hyx]; exact hper)
      rw [← hyx]
      exact this
    · intro id e hl hper
      rw [lookup2, hk] at hl
      simp only [Option.some_bind] at hl
      have hmem : (id, e) ∈ submap := mem_of_alookup_eq_some hl
      rcases sweepSelect_session_kept https host path now hmem hper with hkept | hkept
      all_goals have hnil : (sweepSelect https host path now submap).1 ≠ [] :=
        List.ne_nil_of_mem hkept
      all_goals by_cases hmod : (sweepSelect https host path now submap).2.2 = true
      · refine ⟨e, ?_, Or.inl rfl⟩
        rw [lookup2, Entries, hk]
        simp only [hmod, if_true, if_neg hnil]
        rw [alookup_ainsert_self]
        simp only [Option.some_bind]
        exact alookup_of_mem_nodup hkept hndr
      · refine ⟨e, ?_, Or.inl rfl⟩
        rw [lookup2, Entries, hk]
        simp only [hmod]
        rw [if_neg (by simp [hmod]), hk]
        simp only [Option.some_bind]
        exact hl
      · refine ⟨touch e now, ?_, Or.inr rfl⟩
        rw [lookup2, Entries, hk]
        simp only [hmod, if_true, if_neg hnil]
        rw [alookup_ainsert_self]
        simp only [Option.some_bind]
        exact alookup_of_mem_nodup hkept hndr
      · refine ⟨e, ?_, Or.inl rfl⟩
        rw [lookup2, Entries, hk]
        simp only [hmod]
        rw [if_neg (by simp [hmod]), hk]
        simp only [Option.some_bind]
        exact hl

/-- C3 (witness): in the sweep scenario the expired persistent record is
deleted from the partition by the query. -/
theorem entries_sweep_witness :
    lookup2 (Entries sweepScenario true (str "example.com") (str "/") (str "k") 20).2
      (str "k") (str "idp") = none :=
  (entries_sweep sweepScenario true (str "example.com") (str "/") (str "k") 20
    ⟨by decide, by decide⟩).1 (str "idp")
    { entry := expiredEntry, seqNum := 0 } (by decide) (by decide) (by decide)

theorem entryLess_iff (a b : InMemEntry) :
    entryLess a b = true ↔
      (a.entry.Path.length > b.entry.Path.length ∨
        (a.entry.Path.length = b.entry.Path.length ∧
          (a.entry.Creation < b.entry.Creation ∨
            (a.entry.Creation = b.entry.Creation ∧ a.seqNum < b.seqNum)))) := by
  unfold entryLess
  by_cases h1 : a.entry.Path.length ≠ b.entry.Path.length
  · simp [if_pos h1, h1]
  · push_neg at h1
    rw [if_neg (by simpa using h1)]
    by_cases h2 : a.entry.Creation ≠ b.entry.Creation
    · simp [if_pos h2, h1, h2]
    · push_neg at h2
      rw [if_neg (by simpa using h2)]
      simp [h1, h2]

theorem entryLe_iff (a b : InMemEntry) :
    entryLe a b = true ↔
      (a.entry.Path.length > b.entry.Path.length ∨
        (a.entry.Path.length = b.entry.Path.length ∧
          (a.entry.Creation < b.entry.Creation ∨
            (a.entry.Creation = b.entry.Creation ∧ a.seqNum ≤ b.seqNum)))) := by
  unfold entryLe
  rw [Bool.not_eq_true', ← Bool.not_eq_true, entryLess_iff]
  omega

theorem entryLe_trans (a b c : InMemEntry) (h1 : entryLe a b = true)
    (h2 : entryLe b c = true) : entryLe a c = true := by
  rw [entryLe_iff] at h1 h2 ⊢
  omega

theorem entryLe_total (a b : InMemEntry) : (entryLe a b || entryLe b a) = true := by
  rw [Bool.or_eq_true, entryLe_iff, entryLe_iff]
  omega

/-- C4: the list returned by `Entries` (Query) is exactly the projection of
`selectedSorted` — the matching survivors of the queried partition carrying
their stored sequence numbers — and that list is sorted by path length
descending, then creation time ascending among equal path lengths, then
stored sequence number ascending among equal creation times.  In
particular, the three-record scenario `/a/b` (t = 3), `/a` (t = 1), `/a`
(t = 2) comes back in exactly that order, and two records with equal paths
and equal creation times come back ordered by their stored sequence
numbers: whichever was saved first comes first, in both save orders. -/
theorem entries_sorted (s : InMemoryStorage) (https : Bool) (host path key : GoStr)
    (now : Int) :
    ((Entries s https host path key now).1 =
      (selectedSorted s https host path key now).map InMemEntry.entry) ∧
    ((selectedSorted s https host path key now).Pairwise (fun a b =>
      a.entry.Path.length > b.entry.Path.length ∨
        (a.entry.Path.length = b.entry.Path.length ∧
          (a.entry.Creation < b.entry.Creation ∨
            (a.entry.Creation = b.entry.Creation ∧ a.seqNum ≤ b.seqNum))))) ∧
    ((Entries orderScenario true (str "example.com") (str "/a/b") (str "k") 5).1.map
        (fun e => (e.Path, e.Creation)) =
      [(str "/a/b", (3 : Int)), (str "/a", 1), (str "/a", 2)]) ∧
    ((selectedSorted tieScenarioXY true (str "example.com") (str "/a/b") (str "k") 5).map
        (fun e => (e.entry.Name, e.seqNum)) =
      [(str "ab", 0), (str "a1", 1), (str "x", 2), (str "y", 3)]) ∧
    ((selectedSorted tieScenarioYX true (str "example.com") (str "/a/b") (str "k") 5).map
        (fun e => (e.entry.Name, e.seqNum)) =
      [(str "ab", 0), (str "a1", 1), (str "y", 2), (str "x", 3)]) := by
  refine ⟨?_, ?_, by decide, by decide, by decide⟩
  · cases hk : alookup key s.entries with
    | none =>
      rw [Entries, hk]
      simp [selectedSorted, hk, sweepSelect]
    | some submap =>
      rw [Entries, hk]
      simp [selectedSorted, hk]
  · haveI htot : IsTotal InMemEntry (fun a b => entryLe a b = true) := ⟨by
      intro a b
      rcases (Bool.or_eq_true _ _).mp (entryLe_total a b) with h | h
      · exact Or.inl h
      · exact Or.inr h⟩
    haveI htrans : IsTrans InMemEntry (fun a b => entryLe a b = true) := ⟨by
      intro a b c hab hbc
      exact entryLe_trans a b c hab hbc⟩
    unfold selectedSorted
    have hs := List.sorted_insertionSort (fun a b => entryLe a b = true)
      (sweepSelect https host path now ((alookup key s.entries).getD [])).2.1
    exact hs.imp fun hab => (entryLe_iff _ _).mp hab

/-- C8: ingestion processes the cookies of a list independently: for a URL
with scheme http or https whose host canonicalizes, a cookie on which
`NewEntry` fails is skipped and the rest of the list is processed exactly as
it would be with the failing cookie absent — the final storage state is the
same. -/
theorem setCookies_skips_error (canonicalHost : GoStr → Option GoStr) (isIP : IPCheck)
    (psList : Option PSL) (s : InMemoryStorage) (scheme uhost upath : GoStr)
    (pre suf : List Cookie) (c : Cookie) (now : Int) (host : GoStr)
    (hscheme : scheme = str "http" ∨ scheme = str "https")
    (hhost : canonicalHost uhost = some host)
    (herr : (NewEntry isIP c now (DefaultPath upath) host (JarKey isIP host psList)
        psList).2.2.isSome = true) :
    setCookies canonicalHost isIP psList s scheme uhost upath (pre ++ c :: suf) now =
      setCookies canonicalHost isIP psList s scheme uhost upath (pre ++ suf) now := by
  have hstep : ∀ (st : InMemoryStorage) (l : List Cookie),
      setCookiesLoop isIP psList now (DefaultPath upath) host (JarKey isIP host psList)
        st (c :: l) =
      setCookiesLoop isIP psList now (DefaultPath upath) host (JarKey isIP host psList)
        st l := by
    intro st l
    unfold setCookiesLoop
    simp only [List.foldl_cons]
    rcases hn : NewEntry isIP c now (DefaultPath upath) host (JarKey isIP host psList) psList
      with ⟨e, rm, err⟩
    cases err with
    | none =>
      rw [hn] at herr
      simp at herr
    | some err0 =>
      simp only [hn]
  have hloop : ∀ (l1 l2 : List Cookie) (st : InMemoryStorage),
      setCookiesLoop isIP psList now (DefaultPath upath) host (JarKey isIP host psList)
        st (l1 ++ l2) =
      setCookiesLoop isIP psList now (DefaultPath upath) host (JarKey isIP host psList)
        (setCookiesLoop isIP psList now (DefaultPath upath) host (JarKey isIP host psList)
          st l1) l2 := by
    intro l1 l2 st
    unfold setCookiesLoop
    rw [List.foldl_append]
  have hcond : ¬ (scheme ≠ str "http" ∧ scheme ≠ str "https") := by
    rcases hscheme with h | h <;> simp [h]
  have hne1 : pre ++ c :: suf ≠ [] := by
    intro h
    rcases List.append_eq_nil.mp h with ⟨_, h2⟩
    cases h2
  unfold setCookies
  simp only [if_neg hne1, if_neg hcond, hhost]
  by_cases hpe : pre ++ suf = []
  · rw [if_pos hpe]
    obtain ⟨hp, hsf⟩ := List.append_eq_nil.mp hpe
    subst hp
    subst hsf
    simp only [List.nil_append]
    rw [hstep s []]
    unfold setCookiesLoop
    rfl
  · rw [if_neg hpe]
    rw [hloop pre (c :: suf) s, hloop pre suf s, hstep _ suf]

/-- C8 (witness): a good cookie followed by a malformed-domain cookie leaves
the same state as the good cookie alone. -/
theorem setCookies_skips_error_witness :
    setCookies canonAB noIPCheck none NewInMemoryStorage (str "http") (str "a.b") (str "/")
        ([goodCookie] ++ badDomainCookie :: []) 0 =
      setCookies canonAB noIPCheck none NewInMemoryStorage (str "http") (str "a.b") (str "/")
        ([goodCookie] ++ []) 0 :=
  setCookies_skips_error canonAB noIPCheck none NewInMemoryStorage (str "http") (str "a.b")
    (str "/") [goodCookie] [] badDomainCookie 0 (str "a.b") (Or.inl rfl) rfl (by decide)

end Cookiejarx
